import Mathlib

/-!
Verification development for the PrivMail secure-search circuit engine
(`privmail.cpp` / `privmail_main.cpp`).

The circuit is embedded shallowly at the level of its cleartext semantics:
an 8-bit secret-shared wire bundle becomes a `Nat` byte, a 1-bit wire becomes
a `Bool`, and XOR/AND/OR/NOT gates become the corresponding boolean operators.
The SIMD zip/unzip re-groupings of the C++ code are shape-preserving and do
not change which gate is applied to which wire, so the per-target result of
each mode is expressed directly as the AND/OR tree the code builds.
Secret sharing itself is modelled separately (`FromSharesToValue`,
`base64StringToInput`) so that share-invariance can be stated.
-/

namespace PrivMail

/-- Per-character equality wire: the code splits each 8-bit character bundle
LSB-first, keeps the first `character_bitlen = 6` bits, XNORs keyword and text
bits and AND-reduces them.  Semantically: the low 6 bits agree. -/
def charEq6 (a b : Nat) : Bool :=
  (List.range 6).all fun i => a.testBit i == b.testBit i

/-- CreateChainingCircuit from privmail.cpp:
`((previous ^ OR_BIT) & ((new ^ NOT_BIT) ^ OR_BIT)) ^ OR_BIT` on 1-bit wires. -/
def CreateChainingCircuit (previous_search_result new_search_result OR_BIT NOT_BIT : Bool) : Bool :=
  (((previous_search_result.xor OR_BIT).and
      ((new_search_result.xor NOT_BIT).xor OR_BIT)).xor OR_BIT)

/-- Chaining loop for keywords `j ≥ 1`: keyword `j` uses modifier-chain bits
`M[2j−1]` (OR bit) and `M[2j]` (NOT bit). -/
def chainFrom (M : List Bool) : Nat → Bool → List Bool → Bool
  | _, r, [] => r
  | j, r, m :: rest =>
      chainFrom M (j + 1)
        (CreateChainingCircuit r m (M.getD (2 * j - 1) false) (M.getD (2 * j) false)) rest

/-- Combine the per-keyword match bits of one target under the modifier chain:
keyword 0 contributes `m₀ XOR M[0]`, later keywords go through
`CreateChainingCircuit`.  This is the per-target accumulation the code performs
with its `j == 0` / `j ≥ 1` branches (the short-circuit zero results go through
the very same two branches). -/
def chainAll (M : List Bool) : List Bool → Bool
  | [] => false
  | m0 :: rest => chainFrom M 1 (m0.xor (M.getD 0 false)) rest

/-- Number of compared offsets: the code computes
`int32 num_of_positions = text.size() - keyword.size() + 1` and compares at
positions `0 … num_of_positions - 1`, short-circuiting when `< 1`. -/
def numComparedPositions (text_len kw_len : Nat) : Nat :=
  if (text_len : Int) - kw_len + 1 < 1 then 0 else text_len - kw_len + 1

/-- Normal mode, one offset: all keyword characters equal the text characters
(low 6 bits each) at offset `k`. -/
def positionMatchNormal (K T : List Nat) (k : Nat) : Bool :=
  (List.range K.length).all fun c => charEq6 (K.getD c 0) (T.getD (c + k) 0)

/-- Normal mode, one (keyword, text) pair: OR over all compared offsets
(public constant 0 when no offset is comparable). -/
def searchNormalKeyword (K T : List Nat) : Bool :=
  (List.range (numComparedPositions T.length K.length)).any (positionMatchNormal K T)

/-- Decoded bucketed-keyword input (struct `query_input`): the keyword padded
to its bucket size plus its length mask split into bits. -/
structure query_input where
  bucket_size : Nat
  search_keyword : List Nat
  length_mask : List Bool
  deriving Repr, DecidableEq

/-- Hidden/bucket/index modes, one offset: for each padded-keyword character
`c`, an in-range comparison contributes `charEq ∨ ¬mask[c]`, and a comparison
past the end of the text is filled with all-1 XNOR bits, hence contributes 1. -/
def hiddenPosMatch (q : query_input) (T : List Nat) (t : Nat) : Bool :=
  (List.range q.search_keyword.length).all fun c =>
    if T.length ≤ c + t then true
    else charEq6 (q.search_keyword.getD c 0) (T.getD (c + t) 0) || !(q.length_mask.getD c false)

/-- Hidden/bucket/index modes, one (bucketed keyword, target) pair: OR over
all compared offsets, `num_of_positions = |T| − min_keyword_length + 1`. -/
def bucketedKeywordMatch (q : query_input) (min_keyword_length : Nat) (T : List Nat) : Bool :=
  (List.range (numComparedPositions T.length min_keyword_length)).any (hiddenPosMatch q T)

/-- Decoded per-mail word bucket (struct `bucket_input`). -/
structure bucket_input where
  bucket_size : Nat
  words : List (List Nat)
  deriving Repr, DecidableEq

/-- Bucket mode, one (mail, keyword) pair: buckets strictly smaller than the
keyword's bucket size are skipped; the match is the OR over retained buckets,
then words, then offsets.  An empty OR (no comparable position anywhere) is
the short-circuited public constant 0. -/
def searchBucketKeyword (q : query_input) (min_keyword_length : Nat)
    (buckets : List bucket_input) : Bool :=
  (buckets.filter fun b => !decide (b.bucket_size < q.bucket_size)).any fun b =>
    b.words.any fun w => bucketedKeywordMatch q min_keyword_length w

/-- Index mode, one keyword pass: the first pass pushes a constant-0 wire for
every word of a too-small bucket (in file order); the second pass appends the
per-word match bits of the retained buckets (in file order). -/
def indexPerKeyword (q : query_input) (min_keyword_length : Nat)
    (buckets : List bucket_input) : List Bool :=
  ((buckets.filter fun b => decide (b.bucket_size < q.bucket_size)).flatMap fun b =>
      b.words.map fun _ => false)
    ++ ((buckets.filter fun b => !decide (b.bucket_size < q.bucket_size)).flatMap fun b =>
      b.words.map (bucketedKeywordMatch q min_keyword_length))

/-- Scan for the scheme entry preceding the first occurrence of `bucket_size`
(tail of `getMinKeywordLength`). -/
def minKeywordLengthAux (bucket_size prev : Nat) : List Nat → Option Nat
  | [] => none
  | b :: rest =>
      if b = bucket_size then some (prev + 1) else minKeywordLengthAux bucket_size b rest

/-- getMinKeywordLength from privmail.cpp: the minimum true length of a keyword
stored in bucket `bucket_size`, i.e. one more than the previous scheme entry,
or 1 for the smallest bucket; `none` models the thrown
`std::invalid_argument("Search keyword has invalid bucket size!")`. -/
def getMinKeywordLength (bucket_size : Nat) : List Nat → Option Nat
  | [] => none
  | b :: rest =>
      if b = bucket_size then some 1 else minKeywordLengthAux bucket_size b rest

/-- Split 8-bit byte bundles into 1-bit wires, most-significant bit first
(splitTo1bitShareWrappers: `Split()` is LSB-first, then reversed). -/
def splitTo1bitShareWrappers (input : List Nat) : List Bool :=
  input.flatMap fun byte => (List.range 8).map fun i => byte.testBit (7 - i)

/-- Decoded query entry (struct `search_query`); every Base64 field is
represented by its reconstructed cleartext byte sequence. -/
structure search_query where
  bucket_size : Nat
  keyword_bucketed : List Nat
  keyword_length_mask : List Nat
  keyword_truncated : List Nat
  deriving Repr, DecidableEq

/-- getBucketedKeywordInput from privmail.cpp (value level): pair the padded
keyword with its bit-split length mask. -/
def getBucketedKeywordInput (q : search_query) : query_input :=
  ⟨q.bucket_size, q.keyword_bucketed, splitTo1bitShareWrappers q.keyword_length_mask⟩

/-- Decoded mail record (struct `mail_structure`, circuit-relevant fields). -/
structure mail_structure where
  secret_share_truncated_block : List Nat
  buckets : List bucket_input
  deriving Repr, DecidableEq

/-- Decoded index bucket (struct `index_bucket`); occurrence strings are
opaque to the circuit and only the word list matters. -/
structure index_bucket where
  bucket_size : Nat
  words : List (List Nat)
  deriving Repr, DecidableEq

/-- Decoded search index (struct `search_index`). -/
structure search_index where
  num_of_emails : Nat
  index_buckets : List index_bucket
  deriving Repr, DecidableEq

/-- Search modes (enum `search_mode_enum`). -/
inductive search_mode_enum where
  | eNormal
  | eHidden
  | eBucket
  | eIndex
  | eError
  deriving Repr, DecidableEq

/-- Compute `getMinKeywordLength` for every keyword, failing like the thrown
`std::invalid_argument` on the first keyword whose bucket size is not in the
scheme. -/
def minLens (scheme : List Nat) : List query_input → Except String (List (query_input × Nat))
  | [] => .ok []
  | q :: rest =>
      match getMinKeywordLength q.bucket_size scheme with
      | none => .error "Search keyword has invalid bucket size!"
      | some m =>
          match minLens scheme rest with
          | .error e => .error e
          | .ok l => .ok ((q, m) :: l)

/-- PrivMailSearch from privmail.cpp at the cleartext level: one result bit
per mail (normal/hidden/bucket) or per indexed word (index). -/
def PrivMailSearch (search_queries : List search_query) (modifier_chain : List Nat)
    (mails : List mail_structure) (index : search_index) (bucket_scheme : List Nat)
    (search_mode : search_mode_enum) : Except String (List Bool) :=
  let M := splitTo1bitShareWrappers modifier_chain
  match search_mode with
  | .eNormal =>
      .ok (mails.map fun mail =>
        chainAll M (search_queries.map fun q =>
          searchNormalKeyword q.keyword_truncated mail.secret_share_truncated_block))
  | .eHidden =>
      match minLens bucket_scheme (search_queries.map getBucketedKeywordInput) with
      | .error e => .error e
      | .ok qms =>
          .ok (mails.map fun mail =>
            chainAll M (qms.map fun qm =>
              bucketedKeywordMatch qm.1 qm.2 mail.secret_share_truncated_block))
  | .eBucket =>
      match minLens bucket_scheme (search_queries.map getBucketedKeywordInput) with
      | .error e => .error e
      | .ok qms =>
          .ok (mails.map fun mail =>
            chainAll M (qms.map fun qm => searchBucketKeyword qm.1 qm.2 mail.buckets))
  | .eIndex =>
      match minLens bucket_scheme (search_queries.map getBucketedKeywordInput) with
      | .error e => .error e
      | .ok qms =>
          let buckets : List bucket_input :=
            index.index_buckets.map fun b => ⟨b.bucket_size, b.words⟩
          let total := (buckets.map fun b => b.words.length).sum
          .ok ((List.range total).map fun i =>
            chainAll M (qms.map fun qm => (indexPerKeyword qm.1 qm.2 buckets).getD i false))
  | .eError => .error "Invalid Search Mode"

/-- The canonical Base64 alphabet of simple_base64_decoder. -/
def base64_chars : List Char :=
  ['A', 'B', 'C', 'D', 'E', 'F', 'G', 'H', 'I', 'J', 'K', 'L', 'M',
   'N', 'O', 'P', 'Q', 'R', 'S', 'T', 'U', 'V', 'W', 'X', 'Y', 'Z',
   'a', 'b', 'c', 'd', 'e', 'f', 'g', 'h', 'i', 'j', 'k', 'l', 'm',
   'n', 'o', 'p', 'q', 'r', 's', 't', 'u', 'v', 'w', 'x', 'y', 'z',
   '0', '1', '2', '3', '4', '5', '6', '7', '8', '9', '+', '/']

/-- Scan for the first occurrence of a character, as `std::string::find`
(`none` models `std::string::npos`). -/
def b64findAux (c : Char) (i : Nat) : List Char → Option Nat
  | [] => none
  | d :: rest => if d = c then some i else b64findAux c (i + 1) rest

/-- Position of a character in the Base64 alphabet. -/
def b64find (c : Char) : Option Nat :=
  b64findAux c 0 base64_chars

/-- Loop body of simple_base64_decoder: `bit_stream` and `counter` are the
`uint32_t` loop state, `decoded` the output bytes so far; a character outside
the alphabet that is not `'='` makes the whole function return the empty
vector. -/
def b64aux (bit_stream counter : Nat) (decoded : List Nat) : List Char → List Nat
  | [] => decoded
  | c :: rest =>
      match b64find c with
      | some num_val =>
          let offset := 18 - counter % 4 * 6
          let bs := (bit_stream + (num_val <<< offset)) % 2 ^ 32
          if offset = 12 then b64aux bs (counter + 1) (decoded ++ [(bs >>> 16) &&& 0xff]) rest
          else if offset = 6 then b64aux bs (counter + 1) (decoded ++ [(bs >>> 8) &&& 0xff]) rest
          else if offset = 0 then b64aux 0 (counter + 1) (decoded ++ [bs &&& 0xff]) rest
          else b64aux bs (counter + 1) decoded rest
      | none => if c = '=' then b64aux bit_stream (counter + 1) decoded rest else []

/-- simple_base64_decoder from privmail.cpp. -/
def simple_base64_decoder (data : List Char) : List Nat :=
  b64aux 0 0 [] data

/-- Character of the Base64 alphabet for a 6-bit value. -/
def b64chr (v : Nat) : Char :=
  base64_chars.getD v 'A'

/-- Reference Base64 encoder (RFC 4648, with `'='` padding), used to state
that the decoder inverts canonical encoding byte-for-byte. -/
def base64EncodeSpec : List Nat → List Char
  | [] => []
  | [b0] => [b64chr (b0 / 4), b64chr (b0 % 4 * 16), '=', '=']
  | [b0, b1] => [b64chr (b0 / 4), b64chr (b0 % 4 * 16 + b1 / 16), b64chr (b1 % 16 * 4), '=']
  | b0 :: b1 :: b2 :: rest =>
      b64chr (b0 / 4) :: b64chr (b0 % 4 * 16 + b1 / 16) ::
        b64chr (b1 % 16 * 4 + b2 / 64) :: b64chr (b2 % 64) :: base64EncodeSpec rest

/-- GetCharacterLengthFromBase64 from privmail_main.cpp:
`3 * (length / 4) − count('=')` computed in unsigned arithmetic and returned
as `uint32_t`, modelled as the integer value modulo `2^32`. -/
def GetCharacterLengthFromBase64 (base64_string : List Char) : Nat :=
  ((3 * ((base64_string.length : Int) / 4)
      - (base64_string.countP fun c => c = '=')) % 2 ^ 32).toNat

/-- One secret-shared blob as held by the parties: one Base64 share string
(as a character list) per party. -/
abbrev SharesBlob := List (List Char)

/-- Accumulate one party's share bytes into the reconstruction
(`value[j] ^= shares[i][j]` of FromSharesToValue). -/
def xorInto : List Nat → List Nat → List Nat
  | v, [] => v
  | [], _ :: _ => []
  | v :: vs, s :: ss => (v ^^^ s) :: xorInto vs ss

/-- FromSharesToValue from privmail.cpp: start from party 0's wires and XOR
every later party's wires in element-wise. -/
def FromSharesToValue : List (List Nat) → List Nat
  | [] => []
  | s0 :: rest => rest.foldl xorInto s0

/-- base64StringToInput from privmail.cpp, joint cleartext semantics: each
party Base64-decodes its own share string and feeds the bytes into input
gates; the reconstructed value is the element-wise XOR of the decodings. -/
def base64StringToInput (shares : SharesBlob) : List Nat :=
  FromSharesToValue (shares.map simple_base64_decoder)

/-- Query entry at the shares level: each Base64 field is the list of the
parties' share strings. -/
structure shared_search_query where
  bucket_size : Nat
  keyword_bucketed : SharesBlob
  keyword_length_mask : SharesBlob
  keyword_truncated : SharesBlob

/-- Reconstruct the cleartext query consumed by the circuit. -/
def reconQuery (q : shared_search_query) : search_query :=
  ⟨q.bucket_size, base64StringToInput q.keyword_bucketed,
    base64StringToInput q.keyword_length_mask, base64StringToInput q.keyword_truncated⟩

/-- Word bucket at the shares level. -/
structure shared_bucket where
  bucket_size : Nat
  words : List SharesBlob

/-- Reconstruct the cleartext bucket consumed by the circuit. -/
def reconBucket (b : shared_bucket) : bucket_input :=
  ⟨b.bucket_size, b.words.map base64StringToInput⟩

/-- Mail record at the shares level. -/
structure shared_mail where
  secret_share_truncated_block : SharesBlob
  buckets : List shared_bucket

/-- Reconstruct the cleartext mail record consumed by the circuit. -/
def reconMail (m : shared_mail) : mail_structure :=
  ⟨base64StringToInput m.secret_share_truncated_block, m.buckets.map reconBucket⟩

/-- Index at the shares level. -/
structure shared_index where
  num_of_emails : Nat
  index_buckets : List shared_bucket

/-- Reconstruct the cleartext index consumed by the circuit. -/
def reconIndex (s : shared_index) : search_index :=
  ⟨s.num_of_emails, s.index_buckets.map fun b => ⟨b.bucket_size, b.words.map base64StringToInput⟩⟩

/-- The whole pipeline starting from the parties' share strings: every secret
input enters the circuit through `base64StringToInput` exactly as in the
source, and the search then runs on the reconstructed values. -/
def PrivMailSearchShares (queries : List shared_search_query) (modifier_chain_share : SharesBlob)
    (mails : List shared_mail) (index : shared_index) (bucket_scheme : List Nat)
    (search_mode : search_mode_enum) : Except String (List Bool) :=
  PrivMailSearch (queries.map reconQuery) (base64StringToInput modifier_chain_share)
    (mails.map reconMail) (reconIndex index) bucket_scheme search_mode

/-- XOR of all parties' bytes at index `j` (0 beyond a share's end). -/
def xorAt (shares : List (List Nat)) (j : Nat) : Nat :=
  shares.foldl (fun a s => a ^^^ s.getD j 0) 0

/-- The plaintext a blob of share strings reconstructs to, byte for byte. -/
def xorPlain (blob : SharesBlob) (len : Nat) : List Nat :=
  (List.range len).map fun j => xorAt (blob.map simple_base64_decoder) j

/-- All share strings of a blob decode to the same byte length. -/
def UniformLen (blob : SharesBlob) (len : Nat) : Prop :=
  ∀ s ∈ blob, (simple_base64_decoder s).length = len

instance instDecidableUniformLen (blob : SharesBlob) (len : Nat) :
    Decidable (UniformLen blob len) :=
  inferInstanceAs (Decidable (∀ s ∈ blob, (simple_base64_decoder s).length = len))

/-- Two blobs of per-party share strings reconstruct the same plaintext:
both are nonempty, decode uniformly to some common length, and their bytewise
XORs agree. -/
def BlobEquiv (a b : SharesBlob) : Prop :=
  a ≠ [] ∧ b ≠ [] ∧ ∃ len, UniformLen a len ∧ UniformLen b len ∧ xorPlain a len = xorPlain b len

/-- Queries reconstructing the same plaintext. -/
def QueryEquiv (q1 q2 : shared_search_query) : Prop :=
  q1.bucket_size = q2.bucket_size ∧ BlobEquiv q1.keyword_bucketed q2.keyword_bucketed ∧
    BlobEquiv q1.keyword_length_mask q2.keyword_length_mask ∧
    BlobEquiv q1.keyword_truncated q2.keyword_truncated

/-- Buckets reconstructing the same plaintext words. -/
def BucketEquiv (b1 b2 : shared_bucket) : Prop :=
  b1.bucket_size = b2.bucket_size ∧ List.Forall₂ BlobEquiv b1.words b2.words

/-- Mails reconstructing the same plaintext. -/
def MailEquiv (m1 m2 : shared_mail) : Prop :=
  BlobEquiv m1.secret_share_truncated_block m2.secret_share_truncated_block ∧
    List.Forall₂ BucketEquiv m1.buckets m2.buckets

/-- Indexes reconstructing the same plaintext words. -/
def IndexEquiv (s1 s2 : shared_index) : Prop :=
  s1.num_of_emails = s2.num_of_emails ∧ List.Forall₂ BucketEquiv s1.index_buckets s2.index_buckets

/-- Amended hidden-mode overhang term: offsets where the true-length keyword
hangs past the end of the text; only the in-range true characters are
compared there (out-of-range comparisons are filled with 1s). -/
def hiddenOverhang (q : query_input) (L min_keyword_length : Nat) (T : List Nat) : Bool :=
  (List.range (numComparedPositions T.length min_keyword_length)).any fun t =>
    decide (T.length < t + L) && (List.range L).all fun c =>
      decide (T.length ≤ c + t) || charEq6 (q.search_keyword.getD c 0) (T.getD (c + t) 0)

/-! ## Helper lemmas -/

theorem charEq6_eq_true_iff (a b : Nat) : charEq6 a b = true ↔ a % 64 = b % 64 := by
  have h64 : (64 : Nat) = 2 ^ 6 := by norm_num
  constructor
  · intro h
    apply Nat.eq_of_testBit_eq
    intro i
    rw [h64, Nat.testBit_mod_two_pow, Nat.testBit_mod_two_pow]
    by_cases hi : i < 6
    · have h2 := List.all_eq_true.mp h i (List.mem_range.mpr hi)
      simp only [beq_iff_eq] at h2
      simp [hi, h2]
    · simp [hi]
  · intro h
    apply List.all_eq_true.mpr
    intro i hi
    have hi6 : i < 6 := List.mem_range.mp hi
    have h2 : (a % 64).testBit i = (b % 64).testBit i := by rw [h]
    rw [h64, Nat.testBit_mod_two_pow, Nat.testBit_mod_two_pow] at h2
    rw [decide_eq_true hi6, Bool.true_and, Bool.true_and] at h2
    simp [h2]

theorem lt_numComparedPositions (text_len kw_len k : Nat) :
    k < numComparedPositions text_len kw_len ↔ k + kw_len ≤ text_len := by
  unfold numComparedPositions
  split <;> omega

theorem numComparedPositions_eq_zero (text_len kw_len : Nat) (h : text_len < kw_len) :
    numComparedPositions text_len kw_len = 0 := by
  unfold numComparedPositions
  split <;> omega

theorem numComparedPositions_of_le (text_len kw_len : Nat) (h : kw_len ≤ text_len) :
    numComparedPositions text_len kw_len = text_len - kw_len + 1 := by
  unfold numComparedPositions
  split <;> omega

theorem minLens_error (scheme : List Nat) (qs : List query_input)
    (h : ∃ q ∈ qs, getMinKeywordLength q.bucket_size scheme = none) :
    minLens scheme qs = .error "Search keyword has invalid bucket size!" := by
  induction qs with
  | nil => simp at h
  | cons q rest ih =>
    unfold minLens
    cases hq : getMinKeywordLength q.bucket_size scheme with
    | none => rfl
    | some m =>
      rcases h with ⟨q0, hq0, hnone⟩
      rcases List.mem_cons.mp hq0 with h1 | h1
      · subst h1; rw [hq] at hnone; cases hnone
      · rw [ih ⟨q0, h1, hnone⟩]

/-! ## C3: the modifier-chain combining circuit -/

/-- C3: `CreateChainingCircuit` computes
`((r XOR o) AND ((m XOR n) XOR o)) XOR o`, and this function is AND / AND-NOT
/ OR / OR-NOT of the previous result and the (optionally negated) new match
bit according to the OR and NOT control bits. -/
theorem claim_C3_chaining_circuit (r m o n : Bool) :
    CreateChainingCircuit r m o n = (((r.xor o).and ((m.xor n).xor o)).xor o) ∧
    CreateChainingCircuit r m false false = (r && m) ∧
    CreateChainingCircuit r m false true = (r && !m) ∧
    CreateChainingCircuit r m true false = (r || m) ∧
    CreateChainingCircuit r m true true = (r || !m) := by
  refine ⟨rfl, ?_, ?_, ?_, ?_⟩ <;> cases r <;> cases m <;> rfl

/-! ## C5: invalid bucket size is fatal -/

/-- C5: a query keyword whose bucket size is not in the public bucket scheme
makes circuit construction fail with the invalid-bucket-scheme error, in every
search mode that processes bucketed keywords (hidden, bucket and index). -/
theorem claim_C5_invalid_bucket_scheme (queries : List search_query) (modifier_chain : List Nat)
    (mails : List mail_structure) (index : search_index) (scheme : List Nat)
    (mode : search_mode_enum)
    (hmode : mode = .eHidden ∨ mode = .eBucket ∨ mode = .eIndex)
    (h : ∃ q ∈ queries, getMinKeywordLength q.bucket_size scheme = none) :
    PrivMailSearch queries modifier_chain mails index scheme mode =
      .error "Search keyword has invalid bucket size!" := by
  have herr : minLens scheme (queries.map getBucketedKeywordInput) =
      .error "Search keyword has invalid bucket size!" := by
    apply minLens_error
    rcases h with ⟨q, hq, hnone⟩
    exact ⟨getBucketedKeywordInput q, List.mem_map_of_mem _ hq, hnone⟩
  rcases hmode with h1 | h1 | h1 <;> subst h1 <;> simp [PrivMailSearch, herr]

/-- Witness for C5 at a concrete input: scheme `[4]`, keyword bucket size 5. -/
theorem claim_C5_witness :
    PrivMailSearch [⟨5, [], [], []⟩] [] [] ⟨0, []⟩ [4] .eHidden =
      .error "Search keyword has invalid bucket size!" :=
  claim_C5_invalid_bucket_scheme [⟨5, [], [], []⟩] [] [] ⟨0, []⟩ [4] .eHidden
    (Or.inl rfl) ⟨⟨5, [], [], []⟩, by decide, by decide⟩

/-! ## C4: empty comparison yields constant 0, chained normally -/

/-- C4: whenever no position is comparable — keyword longer than the text in
normal mode, text shorter than the minimum keyword length in hidden mode, or
no retained bucket offering any comparable position in bucket mode — the
per-keyword contribution is the public constant 0 and no error is raised;
the full normal-mode result is the modifier chain applied to the per-keyword
bits, so such a 0 is chained exactly like a real match bit. -/
theorem claim_C4_empty_comparison (K Tn Th : List Nat) (q : query_input) (m : Nat)
    (buckets : List bucket_input) (queries : List search_query) (modifier_chain : List Nat)
    (mails : List mail_structure) (index : search_index) (scheme : List Nat)
    (hn : Tn.length < K.length) (hh : Th.length < m)
    (hb : ∀ b ∈ buckets, ¬b.bucket_size < q.bucket_size → ∀ w ∈ b.words, w.length < m) :
    searchNormalKeyword K Tn = false ∧
    bucketedKeywordMatch q m Th = false ∧
    searchBucketKeyword q m buckets = false ∧
    PrivMailSearch queries modifier_chain mails index scheme .eNormal =
      .ok (mails.map fun mail =>
        chainAll (splitTo1bitShareWrappers modifier_chain) (queries.map fun qq =>
          searchNormalKeyword qq.keyword_truncated mail.secret_share_truncated_block)) := by
  refine ⟨?_, ?_, ?_, rfl⟩
  · rw [searchNormalKeyword, numComparedPositions_eq_zero _ _ hn]
    rfl
  · rw [bucketedKeywordMatch, numComparedPositions_eq_zero _ _ hh]
    rfl
  · apply List.any_eq_false.mpr
    intro b hbmem
    rcases List.mem_filter.mp hbmem with ⟨hbin, hbbig⟩
    have hbig : ¬b.bucket_size < q.bucket_size := by simpa using hbbig
    simp only [Bool.not_eq_true, List.any_eq_false]
    intro w hw
    rw [bucketedKeywordMatch, numComparedPositions_eq_zero _ _ (hb b hbin hbig w hw)]
    rfl

/-- Witness for C4 at concrete inputs: keyword `[1]` vs the empty text,
minimum length 5 vs a 2-byte text, and a retained bucket whose only word is
shorter than the minimum keyword length. -/
theorem claim_C4_witness :
    searchNormalKeyword [1] [] = false ∧
    bucketedKeywordMatch ⟨4, [1, 2, 3, 4], []⟩ 5 [7, 7] = false ∧
    searchBucketKeyword ⟨4, [1, 2, 3, 4], []⟩ 5 [⟨4, [[9]]⟩] = false ∧
    PrivMailSearch [] [0] [⟨[3], []⟩] ⟨0, []⟩ [4] .eNormal =
      .ok (([⟨[3], []⟩] : List mail_structure).map fun mail =>
        chainAll (splitTo1bitShareWrappers [0]) (([] : List search_query).map fun qq =>
          searchNormalKeyword qq.keyword_truncated mail.secret_share_truncated_block)) :=
  claim_C4_empty_comparison [1] [] [7, 7] ⟨4, [1, 2, 3, 4], []⟩ 5 [⟨4, [[9]]⟩] [] [0]
    [⟨[3], []⟩] ⟨0, []⟩ [4] (by decide) (by decide) (by decide)

/-! ## C8: bucket-mode monotonicity -/

/-- C8: in bucket mode the per-keyword match bit is the OR, over exactly the
corpus buckets whose size is at least the keyword's bucket size, of the OR
over their words and comparable offsets; dropping every strictly smaller
bucket leaves the result unchanged, so a match can never arise from one. -/
theorem claim_C8_bucket_monotonicity (q : query_input) (m : Nat) (buckets : List bucket_input) :
    (searchBucketKeyword q m buckets = true ↔
      ∃ b ∈ buckets, q.bucket_size ≤ b.bucket_size ∧ ∃ w ∈ b.words,
        ∃ t, t + m ≤ w.length ∧ hiddenPosMatch q w t = true) ∧
    searchBucketKeyword q m buckets =
      searchBucketKeyword q m
        (buckets.filter fun b => !decide (b.bucket_size < q.bucket_size)) := by
  constructor
  · simp only [searchBucketKeyword, bucketedKeywordMatch, List.any_eq_true, List.mem_filter,
      Bool.not_eq_true', decide_eq_false_iff_not, Nat.not_lt, List.mem_range,
      lt_numComparedPositions]
    constructor
    · rintro ⟨b, ⟨hbin, hble⟩, w, hw, t, ht, hmatch⟩
      exact ⟨b, hbin, hble, w, hw, t, ht, hmatch⟩
    · rintro ⟨b, hbin, hble, w, hw, t, ht, hmatch⟩
      exact ⟨b, ⟨hbin, hble⟩, w, hw, t, ht, hmatch⟩
  · rw [searchBucketKeyword, searchBucketKeyword, List.filter_filter]
    simp

/-! ## C1: normal-mode single-keyword semantics -/

/-- C1: in normal mode with a single keyword and a modifier chain whose first
bit is 0, each mail's result wire is its per-keyword match bit, that bit is 1
iff the keyword occurs in the text at some offset under 6-bit character
comparison, and when the keyword fits the number of compared offsets is
exactly `|text| − |keyword| + 1`. -/
theorem claim_C1_normal_single_keyword (q : search_query) (modifier_chain : List Nat)
    (mails : List mail_structure) (index : search_index) (scheme : List Nat)
    (h0 : (splitTo1bitShareWrappers modifier_chain).getD 0 false = false) :
    PrivMailSearch [q] modifier_chain mails index scheme .eNormal =
      .ok (mails.map fun mail =>
        searchNormalKeyword q.keyword_truncated mail.secret_share_truncated_block) ∧
    (∀ K T : List Nat, searchNormalKeyword K T = true ↔
      ∃ k, k + K.length ≤ T.length ∧
        ∀ c < K.length, (K.getD c 0) % 64 = (T.getD (c + k) 0) % 64) ∧
    (∀ text_len kw_len : Nat, kw_len ≤ text_len →
      numComparedPositions text_len kw_len = text_len - kw_len + 1) := by
  have h0' : (splitTo1bitShareWrappers modifier_chain)[0]?.getD false = false := by
    rw [← List.getD_eq_getElem?_getD]; exact h0
  refine ⟨?_, ?_, numComparedPositions_of_le⟩
  · simp [PrivMailSearch, chainAll, chainFrom, h0']
  · intro K T
    simp only [searchNormalKeyword, List.any_eq_true, List.mem_range, lt_numComparedPositions,
      positionMatchNormal, List.all_eq_true, charEq6_eq_true_iff]

/-- Witness for C1 at a concrete input: keyword `"w"`, text `"w"`,
modifier chain byte 0. -/
theorem claim_C1_witness :
    (PrivMailSearch [⟨1, [119], [128], [119]⟩] [0] [⟨[119], []⟩] ⟨0, []⟩ [1] .eNormal =
      .ok (([⟨[119], []⟩] : List mail_structure).map fun mail =>
        searchNormalKeyword [119] mail.secret_share_truncated_block) ∧
    (∀ K T : List Nat, searchNormalKeyword K T = true ↔
      ∃ k, k + K.length ≤ T.length ∧
        ∀ c < K.length, (K.getD c 0) % 64 = (T.getD (c + k) 0) % 64) ∧
    (∀ text_len kw_len : Nat, kw_len ≤ text_len →
      numComparedPositions text_len kw_len = text_len - kw_len + 1)) :=
  claim_C1_normal_single_keyword ⟨1, [119], [128], [119]⟩ [0] [⟨[119], []⟩] ⟨0, []⟩ [1]
    (by decide)

/-! ## C2: hidden mode versus normal mode on the truncated keyword -/

theorem getD_take_of_lt (K : List Nat) (L c : Nat) (h : c < L) :
    (K.take L).getD c 0 = K.getD c 0 := by
  rw [List.getD_eq_getElem?_getD, List.getD_eq_getElem?_getD, List.getElem?_take, if_pos h]

theorem getMinKeywordLength_head (B : Nat) (rest : List Nat) :
    getMinKeywordLength B (B :: rest) = some 1 := by
  simp [getMinKeywordLength]

theorem minKeywordLengthAux_prev (B : Nat) : ∀ (pre : List Nat) (p0 prev : Nat) (post : List Nat),
    B ∉ pre → B ≠ prev →
    minKeywordLengthAux B p0 (pre ++ prev :: B :: post) = some (prev + 1) := by
  intro pre
  induction pre with
  | nil =>
    intro p0 prev post _ hBp
    rw [List.nil_append, minKeywordLengthAux, if_neg (fun h => hBp h.symm)]
    simp [minKeywordLengthAux]
  | cons x pre ih =>
    intro p0 prev post hpre hBp
    have hx : ¬x = B := fun h => hpre (by simp [h])
    rw [List.cons_append, minKeywordLengthAux, if_neg hx]
    exact ih x prev post (fun h => hpre (List.mem_cons_of_mem _ h)) hBp

theorem getMinKeywordLength_prev (B : Nat) (pre : List Nat) (prev : Nat) (post : List Nat)
    (hpre : B ∉ pre) (hBp : B ≠ prev) :
    getMinKeywordLength B (pre ++ prev :: B :: post) = some (prev + 1) := by
  cases pre with
  | nil =>
    rw [List.nil_append, getMinKeywordLength, if_neg (fun h => hBp h.symm)]
    simp [minKeywordLengthAux]
  | cons x pre =>
    have hx : ¬x = B := fun h => hpre (by simp [h])
    rw [List.cons_append, getMinKeywordLength, if_neg hx]
    exact minKeywordLengthAux_prev B pre x prev post (fun h => hpre (List.mem_cons_of_mem _ h)) hBp

theorem hiddenPosMatch_mask (q : query_input) (L : Nat) (T : List Nat) (t : Nat)
    (hmask : ∀ c < q.search_keyword.length, q.length_mask.getD c false = decide (c < L))
    (hL : L ≤ q.search_keyword.length) :
    hiddenPosMatch q T t =
      ((List.range L).all fun c =>
        decide (T.length ≤ c + t) || charEq6 (q.search_keyword.getD c 0) (T.getD (c + t) 0)) := by
  rw [Bool.eq_iff_iff]
  simp only [hiddenPosMatch, List.all_eq_true, List.mem_range]
  constructor
  · intro h c hc
    have hck : c < q.search_keyword.length := lt_of_lt_of_le hc hL
    have h2 := h c hck
    rw [hmask c hck] at h2
    by_cases hct : T.length ≤ c + t
    · simp [hct]
    · rw [if_neg hct, decide_eq_true hc] at h2
      simp only [Bool.not_true, Bool.or_false] at h2
      rw [decide_eq_false hct, Bool.false_or]
      exact h2
  · intro h c hck
    by_cases hct : T.length ≤ c + t
    · rw [if_pos hct]
    · rw [if_neg hct, hmask c hck]
      by_cases hcL : c < L
      · have h2 := h c hcL
        rw [decide_eq_false hct] at h2
        simp only [Bool.false_or] at h2
        rw [decide_eq_true hcL, Bool.not_true, Bool.or_false]
        exact h2
      · simp [hcL]

/-- C2 counterexample: bucket scheme `[4]`, keyword `"ab"` padded to bucket
size 4 with length mask `0xC0` (two leading 1-bits, true length 2 < 4),
minimum keyword length 1, text `"xa"`.  The hidden-mode match bit is 1
(offset 1 compares only the in-range character `'a'`; the second true
character falls past the end of the text and is filled with 1s), while the
normal-mode match with the keyword truncated to `"ab"` is 0. -/
theorem claim_C2_counterexample :
    getMinKeywordLength 4 [4] = some 1 ∧
    splitTo1bitShareWrappers [192] = [true, true, false, false, false, false, false, false] ∧
    bucketedKeywordMatch (getBucketedKeywordInput ⟨4, [97, 98, 0, 0], [192], [97, 98]⟩) 1
      [120, 97] = true ∧
    searchNormalKeyword (([97, 98, 0, 0] : List Nat).take 2) [120, 97] = false := by
  decide

/-- C2 amended: for a bucketed keyword whose length mask has `L` leading
1-bits, `L` less than the bucket size and at least the bucket's minimum
keyword length `m`, the hidden-mode match bit equals the normal-mode match bit
of the keyword truncated to its first `L` characters OR an overhang term:
offsets within the compared range where the truncated keyword hangs past the
end of the text and all its in-range characters match (so a proper prefix of
the truncated keyword matching a suffix of the text also sets the bit).
Hidden mode compares at `|T| − m + 1` positions, where `m` is one more than
the scheme entry preceding the bucket size, or 1 when the bucket size is the
first scheme entry. -/
theorem claim_C2_hidden_vs_truncated (q : query_input) (L m : Nat) (T : List Nat)
    (scheme : List Nat)
    (hmin : getMinKeywordLength q.bucket_size scheme = some m)
    (hmask : ∀ c < q.search_keyword.length, q.length_mask.getD c false = decide (c < L))
    (hLB : L < q.search_keyword.length)
    (hmL : m ≤ L) :
    bucketedKeywordMatch q m T =
      (searchNormalKeyword (q.search_keyword.take L) T || hiddenOverhang q L m T) ∧
    (m ≤ T.length → numComparedPositions T.length m = T.length - m + 1) ∧
    (∀ rest, scheme = q.bucket_size :: rest → m = 1) ∧
    (∀ pre prev post, scheme = pre ++ prev :: q.bucket_size :: post →
      q.bucket_size ∉ pre → q.bucket_size ≠ prev → m = prev + 1) := by
  have hL : L ≤ q.search_keyword.length := le_of_lt hLB
  have hlen : (q.search_keyword.take L).length = L := by rw [List.length_take]; omega
  refine ⟨?_, fun h => numComparedPositions_of_le _ _ h, ?_, ?_⟩
  · rw [Bool.eq_iff_iff, Bool.or_eq_true]
    constructor
    · intro hmatch
      rcases List.any_eq_true.mp hmatch with ⟨t, htmem, hpos⟩
      rw [hiddenPosMatch_mask q L T t hmask hL] at hpos
      have hall := List.all_eq_true.mp hpos
      by_cases hover : T.length < t + L
      · refine Or.inr (List.any_eq_true.mpr ⟨t, htmem, ?_⟩)
        rw [Bool.and_eq_true]
        exact ⟨decide_eq_true hover, hpos⟩
      · push_neg at hover
        refine Or.inl (List.any_eq_true.mpr ⟨t, ?_, ?_⟩)
        · apply List.mem_range.mpr
          rw [lt_numComparedPositions, hlen]
          exact hover
        · unfold positionMatchNormal
          apply List.all_eq_true.mpr
          intro c hc
          rw [hlen] at hc
          have hcL : c < L := List.mem_range.mp hc
          have h2 := hall c (List.mem_range.mpr hcL)
          rw [Bool.or_eq_true] at h2
          rcases h2 with hout | heq
          · exact absurd (of_decide_eq_true hout) (by omega)
          · rw [getD_take_of_lt _ _ _ hcL]
            exact heq
    · intro h
      rcases h with hnorm | hov
      · rcases List.any_eq_true.mp hnorm with ⟨t, htmem, hpos⟩
        have htL : t + L ≤ T.length := by
          have h2 := List.mem_range.mp htmem
          rw [lt_numComparedPositions, hlen] at h2
          exact h2
        apply List.any_eq_true.mpr
        refine ⟨t, List.mem_range.mpr ((lt_numComparedPositions _ _ _).mpr (by omega)), ?_⟩
        rw [hiddenPosMatch_mask q L T t hmask hL]
        apply List.all_eq_true.mpr
        intro c hc
        have hcL : c < L := List.mem_range.mp hc
        have heq := List.all_eq_true.mp hpos c (by rw [hlen]; exact List.mem_range.mpr hcL)
        rw [getD_take_of_lt _ _ _ hcL] at heq
        rw [Bool.or_eq_true]
        exact Or.inr heq
      · rcases List.any_eq_true.mp hov with ⟨t, htmem, hbody⟩
        rw [Bool.and_eq_true] at hbody
        rcases hbody with ⟨_, hall⟩
        apply List.any_eq_true.mpr
        refine ⟨t, htmem, ?_⟩
        rw [hiddenPosMatch_mask q L T t hmask hL]
        exact hall
  · intro rest hs
    subst hs
    rw [getMinKeywordLength_head] at hmin
    exact (Option.some.inj hmin).symm
  · intro pre prev post hs hpre hprev
    subst hs
    rw [getMinKeywordLength_prev _ pre prev post hpre hprev] at hmin
    exact (Option.some.inj hmin).symm

/-- Witness for the amended C2 at the counterexample's input. -/
theorem claim_C2_witness :
    bucketedKeywordMatch
        ⟨4, [97, 98, 0, 0], [true, true, false, false, false, false, false, false]⟩ 1 [120, 97] =
      (searchNormalKeyword [97, 98] [120, 97] ||
        hiddenOverhang
          ⟨4, [97, 98, 0, 0], [true, true, false, false, false, false, false, false]⟩ 2 1
          [120, 97]) ∧
    ((1 : Nat) ≤ 2 → numComparedPositions 2 1 = 2 - 1 + 1) ∧
    (∀ rest : List Nat, [4] = 4 :: rest → (1 : Nat) = 1) ∧
    (∀ (pre : List Nat) (prev : Nat) (post : List Nat),
      ([4] : List Nat) = pre ++ prev :: 4 :: post → (4 : Nat) ∉ pre → (4 : Nat) ≠ prev →
      (1 : Nat) = prev + 1) :=
  claim_C2_hidden_vs_truncated
    ⟨4, [97, 98, 0, 0], [true, true, false, false, false, false, false, false]⟩
    2 1 [120, 97] [4] (by decide) (by decide) (by decide) (by decide)

/-! ## C6: index-mode result vector -/

theorem flatMap_congr_left {α β : Type} {l : List α} {f g : α → List β}
    (h : ∀ a ∈ l, f a = g a) : l.flatMap f = l.flatMap g := by
  induction l with
  | nil => rfl
  | cons x xs ih =>
    rw [List.flatMap_cons, List.flatMap_cons, h x (List.mem_cons_self x xs),
      ih fun a ha => h a (List.mem_cons_of_mem _ ha)]

theorem map_range_getD {α : Type} (d : α) : ∀ l : List α,
    (List.range l.length).map (fun i => l.getD i d) = l := by
  intro l
  induction l with
  | nil => rfl
  | cons x xs ih =>
    rw [List.length_cons, List.range_succ_eq_map, List.map_cons, List.map_map]
    have h2 : ((fun i => (x :: xs).getD i d) ∘ Nat.succ) = fun i => xs.getD i d := by
      funext i
      exact List.getD_cons_succ
    rw [List.getD_cons_zero, h2, ih]

/-- C6 counterexample: scheme `[4, 8]`, a keyword of bucket size 8 that
matches the word `[1,…,8]`, and an index whose bucket of size 8 (holding that
word) precedes the bucket of size 4 in file order.  The code pushes the
constant-0 wires of the too-small bucket first and appends the retained
bucket's match bits afterwards, so the result vector is `[0, 1]`, although the
first indexed word in index-file order is the matching `[1,…,8]` — position 0
does not carry the first word's match bit. -/
theorem claim_C6_counterexample :
    PrivMailSearch [⟨8, [1, 2, 3, 4, 5, 6, 7, 8], [255], []⟩] [0] []
        ⟨1, [⟨8, [[1, 2, 3, 4, 5, 6, 7, 8]]⟩, ⟨4, [[9, 9, 9, 9]]⟩]⟩ [4, 8] .eIndex
      = .ok [false, true] ∧
    bucketedKeywordMatch (getBucketedKeywordInput ⟨8, [1, 2, 3, 4, 5, 6, 7, 8], [255], []⟩) 5
      [1, 2, 3, 4, 5, 6, 7, 8] = true :=
  ⟨rfl, rfl⟩

/-- C6 amended: the index-mode result vector has exactly one wire per indexed
word (its length is the total word count), and in a single-keyword query with
first modifier bit 0 it consists of constant-0 wires for every word in a
bucket smaller than the keyword's bucket size and of the per-word match bits
for the retained buckets — at the words' own index-file positions provided
every smaller bucket precedes every retained bucket in the file (as with
buckets listed in ascending scheme order); otherwise the constant-0 wires of
the smaller buckets are emitted first and the retained buckets' match bits
are appended after them. -/
theorem claim_C6_index_result_vector (q : search_query) (modifier_chain : List Nat)
    (mails : List mail_structure) (ne : Nat) (sm bg : List index_bucket)
    (scheme : List Nat) (m : Nat)
    (hmin : getMinKeywordLength q.bucket_size scheme = some m)
    (h0 : (splitTo1bitShareWrappers modifier_chain).getD 0 false = false)
    (hsm : ∀ b ∈ sm, b.bucket_size < q.bucket_size)
    (hbg : ∀ b ∈ bg, ¬b.bucket_size < q.bucket_size) :
    PrivMailSearch [q] modifier_chain mails ⟨ne, sm ++ bg⟩ scheme .eIndex =
      .ok ((sm ++ bg).flatMap fun b => b.words.map fun w =>
        if b.bucket_size < q.bucket_size then false
        else bucketedKeywordMatch (getBucketedKeywordInput q) m w) ∧
    ((sm ++ bg).flatMap fun b => b.words.map fun w =>
        if b.bucket_size < q.bucket_size then false
        else bucketedKeywordMatch (getBucketedKeywordInput q) m w).length
      = ((sm ++ bg).map fun b => b.words.length).sum := by
  have h0' : (splitTo1bitShareWrappers modifier_chain)[0]?.getD false = false := by
    rw [← List.getD_eq_getElem?_getD]; exact h0
  have hq : (getBucketedKeywordInput q).bucket_size = q.bucket_size := rfl
  have hRHSlen : ((sm ++ bg).flatMap fun b => b.words.map fun w =>
      if b.bucket_size < q.bucket_size then false
      else bucketedKeywordMatch (getBucketedKeywordInput q) m w).length
      = ((sm ++ bg).map fun b => b.words.length).sum := by
    rw [List.length_flatMap]
    congr 1
    apply List.map_congr_left
    intro b _
    simp [List.length_map]
  refine ⟨?_, hRHSlen⟩
  have hmin2 : minLens scheme [getBucketedKeywordInput q] =
      .ok [(getBucketedKeywordInput q, m)] := by
    simp [minLens, hq, hmin]
  have hperK : indexPerKeyword (getBucketedKeywordInput q) m
      ((sm ++ bg).map fun b => (⟨b.bucket_size, b.words⟩ : bucket_input)) =
      ((sm ++ bg).flatMap fun b => b.words.map fun w =>
        if b.bucket_size < q.bucket_size then false
        else bucketedKeywordMatch (getBucketedKeywordInput q) m w) := by
    rw [indexPerKeyword, List.map_append, List.filter_append, List.filter_append]
    have hs1 : ((sm.map fun b => (⟨b.bucket_size, b.words⟩ : bucket_input)).filter
        fun b => decide (b.bucket_size < (getBucketedKeywordInput q).bucket_size)) =
        sm.map fun b => (⟨b.bucket_size, b.words⟩ : bucket_input) := by
      apply List.filter_eq_self.mpr
      intro b hb
      rcases List.mem_map.mp hb with ⟨a, ha, rfl⟩
      exact decide_eq_true (hsm a ha)
    have hs2 : ((bg.map fun b => (⟨b.bucket_size, b.words⟩ : bucket_input)).filter
        fun b => decide (b.bucket_size < (getBucketedKeywordInput q).bucket_size)) = [] := by
      apply List.filter_eq_nil_iff.mpr
      intro b hb
      rcases List.mem_map.mp hb with ⟨a, ha, rfl⟩
      simpa using hbg a ha
    have hb1 : ((sm.map fun b => (⟨b.bucket_size, b.words⟩ : bucket_input)).filter
        fun b => !decide (b.bucket_size < (getBucketedKeywordInput q).bucket_size)) = [] := by
      apply List.filter_eq_nil_iff.mpr
      intro b hb
      rcases List.mem_map.mp hb with ⟨a, ha, rfl⟩
      simpa using hsm a ha
    have hb2 : ((bg.map fun b => (⟨b.bucket_size, b.words⟩ : bucket_input)).filter
        fun b => !decide (b.bucket_size < (getBucketedKeywordInput q).bucket_size)) =
        bg.map fun b => (⟨b.bucket_size, b.words⟩ : bucket_input) := by
      apply List.filter_eq_self.mpr
      intro b hb
      rcases List.mem_map.mp hb with ⟨a, ha, rfl⟩
      simpa using hbg a ha
    rw [hs1, hs2, hb1, hb2, List.append_nil, List.nil_append, List.flatMap_append,
      List.flatMap_map, List.flatMap_map]
    congr 1
    · refine (flatMap_congr_left ?_).symm
      intro b hb
      apply List.map_congr_left
      intro w _
      rw [if_pos (hsm b hb)]
    · refine (flatMap_congr_left ?_).symm
      intro b hb
      apply List.map_congr_left
      intro w _
      rw [if_neg (hbg b hb)]
  have htot : (((sm ++ bg).map fun b => (⟨b.bucket_size, b.words⟩ : bucket_input)).map
      fun b => b.words.length).sum =
      ((sm ++ bg).flatMap fun b => b.words.map fun w =>
        if b.bucket_size < q.bucket_size then false
        else bucketedKeywordMatch (getBucketedKeywordInput q) m w).length := by
    rw [hRHSlen, List.map_map]
    rfl
  simp only [PrivMailSearch, List.map_cons, List.map_nil, hmin2, chainAll, chainFrom, h0,
    Bool.xor_false, hperK]
  rw [htot, map_range_getD]

/-- Witness for the amended C6: the counterexample's index with the small
bucket listed first, in scheme order. -/
theorem claim_C6_witness :
    PrivMailSearch [⟨8, [1, 2, 3, 4, 5, 6, 7, 8], [255], []⟩] [0] []
        ⟨1, [⟨4, [[9, 9, 9, 9]]⟩] ++ [⟨8, [[1, 2, 3, 4, 5, 6, 7, 8]]⟩]⟩ [4, 8] .eIndex =
      .ok (([⟨4, [[9, 9, 9, 9]]⟩] ++ [⟨8, [[1, 2, 3, 4, 5, 6, 7, 8]]⟩] :
          List index_bucket).flatMap fun b => b.words.map fun w =>
        if b.bucket_size < (8 : Nat) then false
        else bucketedKeywordMatch
          (getBucketedKeywordInput ⟨8, [1, 2, 3, 4, 5, 6, 7, 8], [255], []⟩) 5 w) ∧
    (([⟨4, [[9, 9, 9, 9]]⟩] ++ [⟨8, [[1, 2, 3, 4, 5, 6, 7, 8]]⟩] :
        List index_bucket).flatMap fun b => b.words.map fun w =>
      if b.bucket_size < (8 : Nat) then false
      else bucketedKeywordMatch
        (getBucketedKeywordInput ⟨8, [1, 2, 3, 4, 5, 6, 7, 8], [255], []⟩) 5 w).length
      = (([⟨4, [[9, 9, 9, 9]]⟩] ++ [⟨8, [[1, 2, 3, 4, 5, 6, 7, 8]]⟩] :
          List index_bucket).map fun b => b.words.length).sum :=
  claim_C6_index_result_vector ⟨8, [1, 2, 3, 4, 5, 6, 7, 8], [255], []⟩ [0] [] 1
    [⟨4, [[9, 9, 9, 9]]⟩] [⟨8, [[1, 2, 3, 4, 5, 6, 7, 8]]⟩] [4, 8] 5
    (by decide) (by decide) (by decide) (by decide)

/-! ## C9: the Base64 share decoder -/

theorem and255_eq_mod (n : Nat) : n &&& 255 = n % 256 := by
  have h1 : (255 : Nat) = 2 ^ 8 - 1 := by norm_num
  have h2 : (256 : Nat) = 2 ^ 8 := by norm_num
  apply Nat.eq_of_testBit_eq
  intro i
  rw [Nat.testBit_and, h1, Nat.testBit_two_pow_sub_one, h2, Nat.testBit_mod_two_pow,
    Bool.and_comm]

theorem b64find_b64chr : ∀ v < 64, b64find (b64chr v) = some v := by
  decide

theorem b64find_pad : b64find '=' = none := by
  decide

theorem b64aux_step0 (B : Nat) (acc : List Nat) (v : Nat) (hv : v < 64) (rest : List Char) :
    b64aux B 0 acc (b64chr v :: rest) = b64aux ((B + (v <<< 18)) % 2 ^ 32) 1 acc rest := by
  simp [b64aux, b64find_b64chr v hv]

theorem b64aux_step1 (B : Nat) (acc : List Nat) (v : Nat) (hv : v < 64) (rest : List Char) :
    b64aux B 1 acc (b64chr v :: rest) =
      b64aux ((B + (v <<< 12)) % 2 ^ 32) 2
        (acc ++ [(((B + (v <<< 12)) % 2 ^ 32) >>> 16) &&& 255]) rest := by
  simp [b64aux, b64find_b64chr v hv]

theorem b64aux_step2 (B : Nat) (acc : List Nat) (v : Nat) (hv : v < 64) (rest : List Char) :
    b64aux B 2 acc (b64chr v :: rest) =
      b64aux ((B + (v <<< 6)) % 2 ^ 32) 3
        (acc ++ [(((B + (v <<< 6)) % 2 ^ 32) >>> 8) &&& 255]) rest := by
  simp [b64aux, b64find_b64chr v hv]

theorem b64aux_step3 (B : Nat) (acc : List Nat) (v : Nat) (hv : v < 64) (rest : List Char) :
    b64aux B 3 acc (b64chr v :: rest) =
      b64aux 0 4 (acc ++ [((B + (v <<< 0)) % 2 ^ 32) &&& 255]) rest := by
  simp [b64aux, b64find_b64chr v hv]

theorem b64aux_step_pad (B cnt : Nat) (acc : List Nat) (rest : List Char) :
    b64aux B cnt acc ('=' :: rest) = b64aux B (cnt + 1) acc rest := by
  simp [b64aux, b64find_pad]

theorem b64aux_counter_congr : ∀ (l : List Char) (B : Nat) (acc : List Nat) (c1 c2 : Nat),
    c1 % 4 = c2 % 4 → b64aux B c1 acc l = b64aux B c2 acc l := by
  intro l
  induction l with
  | nil => intro B acc c1 c2 _; rfl
  | cons c rest ih =>
    intro B acc c1 c2 h
    have h1 : (c1 + 1) % 4 = (c2 + 1) % 4 := by omega
    simp only [b64aux]
    cases hf : b64find c with
    | some v =>
      simp only [hf, h]
      split_ifs <;> exact ih _ _ _ _ h1
    | none =>
      simp only [hf]
      by_cases hc : c = '='
      · rw [if_pos hc, if_pos hc]
        exact ih _ _ _ _ h1
      · rw [if_neg hc, if_neg hc]

theorem b64aux_bad : ∀ (data : List Char) (B cnt : Nat) (acc : List Nat),
    (∃ c ∈ data, b64find c = none ∧ c ≠ '=') → b64aux B cnt acc data = [] := by
  intro data
  induction data with
  | nil => intro B cnt acc h; simp at h
  | cons c rest ih =>
    intro B cnt acc h
    simp only [b64aux]
    cases hf : b64find c with
    | some v =>
      have hrest : ∃ c0 ∈ rest, b64find c0 = none ∧ c0 ≠ '=' := by
        rcases h with ⟨c0, hc0, hnone, hne⟩
        rcases List.mem_cons.mp hc0 with rfl | hmem
        · rw [hf] at hnone; cases hnone
        · exact ⟨c0, hmem, hnone, hne⟩
      simp only [hf]
      split_ifs <;> exact ih _ _ _ hrest
    | none =>
      simp only [hf]
      by_cases hc : c = '='
      · rw [if_pos hc]
        apply ih
        rcases h with ⟨c0, hc0, hnone, hne⟩
        rcases List.mem_cons.mp hc0 with rfl | hmem
        · exact absurd hc hne
        · exact ⟨c0, hmem, hnone, hne⟩
      · rw [if_neg hc]

theorem b64aux_encode : ∀ (n : Nat) (bs : List Nat), bs.length ≤ n → (∀ b ∈ bs, b < 256) →
    ∀ acc : List Nat, b64aux 0 0 acc (base64EncodeSpec bs) = acc ++ bs := by
  intro n
  induction n with
  | zero =>
    intro bs hlen _ acc
    have hnil : bs = [] := List.eq_nil_of_length_eq_zero (Nat.le_zero.mp hlen)
    subst hnil
    simp [base64EncodeSpec, b64aux]
  | succ n ih =>
    intro bs hlen hb acc
    match bs with
    | [] => simp [base64EncodeSpec, b64aux]
    | [b0] =>
      have hb0 : b0 < 256 := hb b0 (by simp)
      rw [show base64EncodeSpec [b0] = [b64chr (b0 / 4), b64chr (b0 % 4 * 16), '=', '='] from
        rfl]
      rw [b64aux_step0 _ _ _ (by omega), b64aux_step1 _ _ _ (by omega), b64aux_step_pad,
        b64aux_step_pad]
      simp only [b64aux]
      congr 1
      simp only [Nat.shiftLeft_eq, Nat.shiftRight_eq_div_pow, and255_eq_mod]
      norm_num
      omega
    | [b0, b1] =>
      have hb0 : b0 < 256 := hb b0 (by simp)
      have hb1 : b1 < 256 := hb b1 (by simp)
      rw [show base64EncodeSpec [b0, b1] =
        [b64chr (b0 / 4), b64chr (b0 % 4 * 16 + b1 / 16), b64chr (b1 % 16 * 4), '='] from rfl]
      rw [b64aux_step0 _ _ _ (by omega), b64aux_step1 _ _ _ (by omega),
        b64aux_step2 _ _ _ (by omega), b64aux_step_pad]
      simp only [b64aux]
      simp only [List.append_assoc, List.cons_append, List.nil_append]
      congr 1
      congr 1
      · simp only [Nat.shiftLeft_eq, Nat.shiftRight_eq_div_pow, and255_eq_mod]
        norm_num
        omega
      · congr 1
        simp only [Nat.shiftLeft_eq, Nat.shiftRight_eq_div_pow, and255_eq_mod]
        norm_num
        omega
    | b0 :: b1 :: b2 :: rest =>
      have hb0 : b0 < 256 := hb b0 (by simp)
      have hb1 : b1 < 256 := hb b1 (by simp)
      have hb2 : b2 < 256 := hb b2 (by simp)
      rw [show base64EncodeSpec (b0 :: b1 :: b2 :: rest) =
        b64chr (b0 / 4) :: b64chr (b0 % 4 * 16 + b1 / 16) ::
          b64chr (b1 % 16 * 4 + b2 / 64) :: b64chr (b2 % 64) :: base64EncodeSpec rest from rfl]
      rw [b64aux_step0 _ _ _ (by omega), b64aux_step1 _ _ _ (by omega),
        b64aux_step2 _ _ _ (by omega), b64aux_step3 _ _ _ (by omega)]
      rw [b64aux_counter_congr _ _ _ 4 0 (by omega)]
      rw [ih rest (by simp at hlen; omega) (fun b hbmem => hb b (by simp [hbmem])) _]
      simp only [List.append_assoc, List.cons_append, List.nil_append]
      congr 1
      congr 1
      · simp only [Nat.shiftLeft_eq, Nat.shiftRight_eq_div_pow, and255_eq_mod]
        norm_num
        omega
      · congr 1
        · simp only [Nat.shiftLeft_eq, Nat.shiftRight_eq_div_pow, and255_eq_mod]
          norm_num
          omega
        · congr 1
          simp only [Nat.shiftLeft_eq, Nat.shiftRight_eq_div_pow, and255_eq_mod]
          norm_num
          omega

/-- C9: the share decoder inverts canonical Base64 encoding byte-for-byte
(padding `'='` included), and any input containing a byte that is neither in
the Base64 alphabet nor `'='` decodes to the empty sequence. -/
theorem claim_C9_base64_decoder :
    (∀ data : List Char, (∃ c ∈ data, b64find c = none ∧ c ≠ '=') →
      simple_base64_decoder data = []) ∧
    (∀ bs : List Nat, (∀ b ∈ bs, b < 256) →
      simple_base64_decoder (base64EncodeSpec bs) = bs) := by
  constructor
  · intro data h
    exact b64aux_bad data 0 0 [] h
  · intro bs hb
    have h := b64aux_encode bs.length bs le_rfl hb []
    simpa using h

/-- Witness for C9: `'*'` is rejected, and the encoding of `"hi"` (with one
padding character) decodes back to `[104, 105]`. -/
theorem claim_C9_witness :
    simple_base64_decoder ['*'] = [] ∧
    simple_base64_decoder (base64EncodeSpec [104, 105]) = [104, 105] :=
  ⟨claim_C9_base64_decoder.1 ['*'] ⟨'*', by decide, by decide, by decide⟩,
    claim_C9_base64_decoder.2 [104, 105] (by decide)⟩

/-! ## C10: GetCharacterLengthFromBase64 -/

theorem b64chr_ne_pad : ∀ v < 64, b64chr v ≠ '=' := by
  decide

theorem length_base64EncodeSpec : ∀ (n : Nat) (bs : List Nat), bs.length ≤ n →
    (base64EncodeSpec bs).length = 4 * ((bs.length + 2) / 3) := by
  intro n
  induction n with
  | zero =>
    intro bs h
    have hnil : bs = [] := List.eq_nil_of_length_eq_zero (Nat.le_zero.mp h)
    subst hnil
    rfl
  | succ n ih =>
    intro bs h
    match bs with
    | [] => rfl
    | [b0] =>
      rw [show base64EncodeSpec [b0] =
        [b64chr (b0 / 4), b64chr (b0 % 4 * 16), '=', '='] from rfl]
      simp
    | [b0, b1] =>
      rw [show base64EncodeSpec [b0, b1] =
        [b64chr (b0 / 4), b64chr (b0 % 4 * 16 + b1 / 16), b64chr (b1 % 16 * 4), '='] from rfl]
      simp
    | b0 :: b1 :: b2 :: rest =>
      rw [show base64EncodeSpec (b0 :: b1 :: b2 :: rest) =
        b64chr (b0 / 4) :: b64chr (b0 % 4 * 16 + b1 / 16) ::
          b64chr (b1 % 16 * 4 + b2 / 64) :: b64chr (b2 % 64) :: base64EncodeSpec rest from rfl]
      simp only [List.length_cons]
      rw [ih rest (by simp only [List.length_cons] at h; omega)]
      omega

theorem countP_pad_base64EncodeSpec : ∀ (n : Nat) (bs : List Nat), bs.length ≤ n →
    (∀ b ∈ bs, b < 256) →
    (base64EncodeSpec bs).countP (fun c => c = '=') = (3 - bs.length % 3) % 3 := by
  intro n
  induction n with
  | zero =>
    intro bs h _
    have hnil : bs = [] := List.eq_nil_of_length_eq_zero (Nat.le_zero.mp h)
    subst hnil
    rfl
  | succ n ih =>
    intro bs h hb
    match bs with
    | [] => rfl
    | [b0] =>
      have hb0 : b0 < 256 := hb b0 (by simp)
      have h1 : (decide (b64chr (b0 / 4) = '=')) = false :=
        decide_eq_false (b64chr_ne_pad _ (by omega))
      have h2 : (decide (b64chr (b0 % 4 * 16) = '=')) = false :=
        decide_eq_false (b64chr_ne_pad _ (by omega))
      rw [show base64EncodeSpec [b0] =
        [b64chr (b0 / 4), b64chr (b0 % 4 * 16), '=', '='] from rfl]
      simp [List.countP_cons, h1, h2]
    | [b0, b1] =>
      have hb0 : b0 < 256 := hb b0 (by simp)
      have hb1 : b1 < 256 := hb b1 (by simp)
      have h1 : (decide (b64chr (b0 / 4) = '=')) = false :=
        decide_eq_false (b64chr_ne_pad _ (by omega))
      have h2 : (decide (b64chr (b0 % 4 * 16 + b1 / 16) = '=')) = false :=
        decide_eq_false (b64chr_ne_pad _ (by omega))
      have h3 : (decide (b64chr (b1 % 16 * 4) = '=')) = false :=
        decide_eq_false (b64chr_ne_pad _ (by omega))
      rw [show base64EncodeSpec [b0, b1] =
        [b64chr (b0 / 4), b64chr (b0 % 4 * 16 + b1 / 16), b64chr (b1 % 16 * 4), '='] from rfl]
      simp [List.countP_cons, h1, h2, h3]
    | b0 :: b1 :: b2 :: rest =>
      have hb0 : b0 < 256 := hb b0 (by simp)
      have hb1 : b1 < 256 := hb b1 (by simp)
      have hb2 : b2 < 256 := hb b2 (by simp)
      have h1 : (decide (b64chr (b0 / 4) = '=')) = false :=
        decide_eq_false (b64chr_ne_pad _ (by omega))
      have h2 : (decide (b64chr (b0 % 4 * 16 + b1 / 16) = '=')) = false :=
        decide_eq_false (b64chr_ne_pad _ (by omega))
      have h3 : (decide (b64chr (b1 % 16 * 4 + b2 / 64) = '=')) = false :=
        decide_eq_false (b64chr_ne_pad _ (by omega))
      have h4 : (decide (b64chr (b2 % 64) = '=')) = false :=
        decide_eq_false (b64chr_ne_pad _ (by omega))
      rw [show base64EncodeSpec (b0 :: b1 :: b2 :: rest) =
        b64chr (b0 / 4) :: b64chr (b0 % 4 * 16 + b1 / 16) ::
          b64chr (b1 % 16 * 4 + b2 / 64) :: b64chr (b2 % 64) :: base64EncodeSpec rest from rfl]
      have hif : (if false = true then (1 : Nat) else 0) = 0 := rfl
      simp only [List.countP_cons, h1, h2, h3, h4, hif]
      rw [ih rest (by simp only [List.length_cons] at h; omega)
        (fun b hbmem => hb b (by simp [hbmem]))]
      simp only [List.length_cons]
      omega

/-- C10: the character count of a Base64 string is `3·(len/4) − count('=')`
in unsigned 32-bit arithmetic: it returns the decoded byte count for every
canonical Base64 string (`"AAAA" ↦ 3`, `"AAA=" ↦ 2`, `"AA==" ↦ 1`,
`"" ↦ 0`), but on the one-character string `"="` the subtraction wraps
modulo `2^32` and yields `2^32 − 1`. -/
theorem claim_C10_character_length :
    (∀ s : List Char, GetCharacterLengthFromBase64 s =
      ((3 * ((s.length : Int) / 4) - (s.countP fun c => c = '=')) % 2 ^ 32).toNat) ∧
    (∀ bs : List Nat, (∀ b ∈ bs, b < 256) → bs.length < 2 ^ 32 →
      GetCharacterLengthFromBase64 (base64EncodeSpec bs) = bs.length) ∧
    GetCharacterLengthFromBase64 ['A', 'A', 'A', 'A'] = 3 ∧
    GetCharacterLengthFromBase64 ['A', 'A', 'A', '='] = 2 ∧
    GetCharacterLengthFromBase64 ['A', 'A', '=', '='] = 1 ∧
    GetCharacterLengthFromBase64 [] = 0 ∧
    GetCharacterLengthFromBase64 ['='] = 2 ^ 32 - 1 := by
  refine ⟨fun s => rfl, ?_, by decide, by decide, by decide, by decide, by decide⟩
  intro bs hb hlen
  rw [GetCharacterLengthFromBase64,
    length_base64EncodeSpec bs.length bs le_rfl,
    countP_pad_base64EncodeSpec bs.length bs le_rfl hb]
  have h32n : (2 : Nat) ^ 32 = 4294967296 := by norm_num
  rw [h32n] at hlen
  have hdiv : ((4 * ((bs.length + 2) / 3) : Nat) : Int) / 4 = (((bs.length + 2) / 3 : Nat) : Int) := by
    omega
  rw [hdiv]
  have hk : 3 * (((bs.length + 2) / 3 : Nat) : Int) - (((3 - bs.length % 3) % 3 : Nat) : Int) =
      (bs.length : Int) := by
    omega
  rw [hk]
  have h32 : (2 : Int) ^ 32 = 4294967296 := by norm_num
  rw [h32]
  omega

/-- Witness for C10's canonical-string law at `[1, 2]`. -/
theorem claim_C10_witness :
    GetCharacterLengthFromBase64 (base64EncodeSpec [1, 2]) = 2 :=
  claim_C10_character_length.2.1 [1, 2] (by decide) (by norm_num)

/-! ## C7: share invariance -/

theorem xorInto_length : ∀ v s : List Nat, (xorInto v s).length = v.length := by
  intro v
  induction v with
  | nil => intro s; cases s <;> rfl
  | cons x xs ih =>
    intro s
    cases s with
    | nil => rfl
    | cons y ys => simp [xorInto, ih ys]

theorem xorInto_getD : ∀ (v s : List Nat), s.length = v.length →
    ∀ j, (xorInto v s).getD j 0 = (v.getD j 0) ^^^ (s.getD j 0) := by
  intro v
  induction v with
  | nil =>
    intro s hs j
    have hnil : s = [] := List.eq_nil_of_length_eq_zero hs
    subst hnil
    simp [xorInto]
  | cons x xs ih =>
    intro s hs j
    cases s with
    | nil => cases hs
    | cons y ys =>
      cases j with
      | zero => rfl
      | succ j =>
        simp only [xorInto, List.getD_cons_succ]
        exact ih ys (by simpa using hs) j

theorem foldl_xorInto_spec : ∀ (rest : List (List Nat)) (v : List Nat) (len : Nat),
    v.length = len → (∀ s ∈ rest, s.length = len) →
    (rest.foldl xorInto v).length = len ∧
    ∀ j, (rest.foldl xorInto v).getD j 0 =
      rest.foldl (fun a s => a ^^^ s.getD j 0) (v.getD j 0) := by
  intro rest
  induction rest with
  | nil => intro v len hv _; exact ⟨hv, fun j => rfl⟩
  | cons s rest ih =>
    intro v len hv hs
    have hslen : s.length = len := hs s (List.mem_cons_self _ _)
    have hnext : (xorInto v s).length = len := by rw [xorInto_length]; exact hv
    have hrest : ∀ s0 ∈ rest, s0.length = len := fun s0 h0 => hs s0 (List.mem_cons_of_mem _ h0)
    rcases ih (xorInto v s) len hnext hrest with ⟨hlen, hgetD⟩
    refine ⟨hlen, fun j => ?_⟩
    rw [List.foldl_cons, hgetD j, xorInto_getD v s (by omega) j, List.foldl_cons]

theorem list_eq_of_getD {α : Type} (d : α) : ∀ l1 l2 : List α, l1.length = l2.length →
    (∀ j, j < l1.length → l1.getD j d = l2.getD j d) → l1 = l2 := by
  intro l1
  induction l1 with
  | nil =>
    intro l2 hlen _
    exact (List.eq_nil_of_length_eq_zero hlen.symm).symm
  | cons x xs ih =>
    intro l2 hlen h
    cases l2 with
    | nil => cases hlen
    | cons y ys =>
      have hx : x = y := h 0 (by simp)
      have hxs : xs = ys := by
        apply ih ys (by simpa using hlen)
        intro j hj
        have := h (j + 1) (by simpa using hj)
        simpa using this
      rw [hx, hxs]

theorem getD_map_range {α : Type} (g : Nat → α) (d : α) (n j : Nat) (h : j < n) :
    ((List.range n).map g).getD j d = g j := by
  rw [List.getD_eq_getElem?_getD, List.getElem?_map, List.getElem?_range h]
  rfl

theorem FromSharesToValue_uniform (ss : List (List Nat)) (len : Nat) (hne : ss ≠ [])
    (h : ∀ s ∈ ss, s.length = len) :
    FromSharesToValue ss = (List.range len).map fun j => xorAt ss j := by
  cases ss with
  | nil => exact absurd rfl hne
  | cons s0 rest =>
    rcases foldl_xorInto_spec rest s0 len (h s0 (List.mem_cons_self _ _))
      (fun s h0 => h s (List.mem_cons_of_mem _ h0)) with ⟨hlen, hgetD⟩
    apply list_eq_of_getD 0
    · rw [FromSharesToValue, hlen, List.length_map, List.length_range]
    · intro j hj
      rw [FromSharesToValue] at hj ⊢
      rw [hlen] at hj
      rw [hgetD j, getD_map_range _ _ _ _ hj]
      rw [xorAt, List.foldl_cons, Nat.zero_xor]

theorem base64StringToInput_congr (a b : SharesBlob) (h : BlobEquiv a b) :
    base64StringToInput a = base64StringToInput b := by
  rcases h with ⟨hna, hnb, len, ha, hb, hxor⟩
  rw [base64StringToInput, base64StringToInput,
    FromSharesToValue_uniform _ len (by simpa using hna)
      (by intro s hs; rcases List.mem_map.mp hs with ⟨x, hx, rfl⟩; exact ha x hx),
    FromSharesToValue_uniform _ len (by simpa using hnb)
      (by intro s hs; rcases List.mem_map.mp hs with ⟨x, hx, rfl⟩; exact hb x hx)]
  simpa [xorPlain] using hxor

theorem map_eq_of_forall₂ {α β : Type} {R : α → α → Prop} {f : α → β} :
    ∀ {l1 l2 : List α}, List.Forall₂ R l1 l2 → (∀ x y, R x y → f x = f y) →
    l1.map f = l2.map f := by
  intro l1 l2 h hf
  induction h with
  | nil => rfl
  | cons hxy _ ih => simp [hf _ _ hxy, ih]

theorem reconQuery_congr : ∀ q1 q2 : shared_search_query, QueryEquiv q1 q2 →
    reconQuery q1 = reconQuery q2 := by
  intro q1 q2 h
  rcases h with ⟨hb, h1, h2, h3⟩
  unfold reconQuery
  rw [hb, base64StringToInput_congr _ _ h1, base64StringToInput_congr _ _ h2,
    base64StringToInput_congr _ _ h3]

theorem reconBucket_congr : ∀ b1 b2 : shared_bucket, BucketEquiv b1 b2 →
    reconBucket b1 = reconBucket b2 := by
  intro b1 b2 h
  rcases h with ⟨hb, hw⟩
  unfold reconBucket
  rw [hb, map_eq_of_forall₂ hw base64StringToInput_congr]

theorem reconMail_congr : ∀ m1 m2 : shared_mail, MailEquiv m1 m2 →
    reconMail m1 = reconMail m2 := by
  intro m1 m2 h
  rcases h with ⟨ht, hbk⟩
  unfold reconMail
  rw [base64StringToInput_congr _ _ ht, map_eq_of_forall₂ hbk reconBucket_congr]

theorem reconIndex_congr : ∀ s1 s2 : shared_index, IndexEquiv s1 s2 →
    reconIndex s1 = reconIndex s2 := by
  intro s1 s2 h
  rcases h with ⟨hn, hbk⟩
  unfold reconIndex
  rw [hn]
  have hmap := map_eq_of_forall₂ (f := fun b : shared_bucket =>
    (⟨b.bucket_size, b.words.map base64StringToInput⟩ : index_bucket)) hbk ?_
  · rw [hmap]
  · intro x y hxy
    rcases hxy with ⟨hs, hw⟩
    simp only [hs, map_eq_of_forall₂ hw base64StringToInput_congr]

/-- C7: the search result depends on the parties' share strings only through
the bytewise XOR of their Base64 decodings: any two assignments of per-party
share strings that reconstruct the same plaintext for the modifier chain,
every query field, every mail block and word, and every index word produce
identical search results, in every mode. -/
theorem claim_C7_share_invariance (qs1 qs2 : List shared_search_query) (mc1 mc2 : SharesBlob)
    (mails1 mails2 : List shared_mail) (idx1 idx2 : shared_index) (scheme : List Nat)
    (mode : search_mode_enum)
    (hq : List.Forall₂ QueryEquiv qs1 qs2) (hmc : BlobEquiv mc1 mc2)
    (hm : List.Forall₂ MailEquiv mails1 mails2) (hi : IndexEquiv idx1 idx2) :
    PrivMailSearchShares qs1 mc1 mails1 idx1 scheme mode =
      PrivMailSearchShares qs2 mc2 mails2 idx2 scheme mode := by
  unfold PrivMailSearchShares
  rw [map_eq_of_forall₂ hq reconQuery_congr, base64StringToInput_congr _ _ hmc,
    map_eq_of_forall₂ hm reconMail_congr, reconIndex_congr _ _ hi]

/-- Witness for C7: two 2-party assignments — all-`'A'` shares versus
all-`'/'` shares — that both reconstruct the all-zero plaintext for a
bucket-size-4 query and the modifier chain. -/
theorem claim_C7_witness :
    PrivMailSearchShares
        [⟨4, [['A', 'A', 'A', 'A', 'A', 'A', '=', '='], ['A', 'A', 'A', 'A', 'A', 'A', '=', '=']],
            [['A', 'A', '=', '='], ['A', 'A', '=', '=']],
            [['A', 'A', '=', '='], ['A', 'A', '=', '=']]⟩]
        [['A', 'A', '=', '='], ['A', 'A', '=', '=']] [] ⟨0, []⟩ [4] .eNormal =
      PrivMailSearchShares
        [⟨4, [['/', '/', '/', '/', '/', '/', '=', '='], ['/', '/', '/', '/', '/', '/', '=', '=']],
            [['/', '/', '=', '='], ['/', '/', '=', '=']],
            [['/', '/', '=', '='], ['/', '/', '=', '=']]⟩]
        [['/', '/', '=', '='], ['/', '/', '=', '=']] [] ⟨0, []⟩ [4] .eNormal :=
  claim_C7_share_invariance
    [⟨4, [['A', 'A', 'A', 'A', 'A', 'A', '=', '='], ['A', 'A', 'A', 'A', 'A', 'A', '=', '=']],
        [['A', 'A', '=', '='], ['A', 'A', '=', '=']],
        [['A', 'A', '=', '='], ['A', 'A', '=', '=']]⟩]
    [⟨4, [['/', '/', '/', '/', '/', '/', '=', '='], ['/', '/', '/', '/', '/', '/', '=', '=']],
        [['/', '/', '=', '='], ['/', '/', '=', '=']],
        [['/', '/', '=', '='], ['/', '/', '=', '=']]⟩]
    [['A', 'A', '=', '='], ['A', 'A', '=', '=']] [['/', '/', '=', '='], ['/', '/', '=', '=']]
    [] [] ⟨0, []⟩ ⟨0, []⟩ [4] .eNormal
    (List.Forall₂.cons
      ⟨rfl, ⟨by decide, by decide, 4, by decide, by decide, by decide⟩,
        ⟨by decide, by decide, 1, by decide, by decide, by decide⟩,
        ⟨by decide, by decide, 1, by decide, by decide, by decide⟩⟩
      List.Forall₂.nil)
    ⟨by decide, by decide, 1, by decide, by decide, by decide⟩
    List.Forall₂.nil ⟨rfl, List.Forall₂.nil⟩

end PrivMail
